import Mathlib

/-!
Verification of the windowed page-cache residency scanner in
src/rhel8-fincore.c.

The embedding models the program's interaction with the operating system
through an oracle (`FileSpec`): for each file we record whether `open`
succeeds, whether `fstat` succeeds (and with which `errno` on failure),
the byte size reported by `fstat`, and, for every window `(offset, len)`
the scanner may map, whether `mmap` succeeds and what the `mincore`
system call returns there (an `errno`, or the per-page residency vector).
All functions are straight translations of the C functions of the same
name; observable side effects (mapping attempts and the `warn` calls)
are returned as an explicit event list.

C integer types (`off_t`, `size_t`, `int`) are modelled as `Nat` for the
non-negative quantities (sizes, offsets, counters; none can overflow on
the inputs the program accepts) and as `Int` for the `rc` return codes,
which are `0` or a negated `errno`.
-/

namespace Fincore

/-- Observable events of one scan: a window-mapping attempt (`mmap` call
with its offset and length), and the four `warn` diagnostics the program
can emit (`failed to do mmap`, `failed to do mincore`, `failed to open`,
`failed to do fstat`). -/
inductive Event where
  | mmap (off len : Nat)
  | warn_mmap
  | warn_mincore
  | warn_open
  | warn_fstat
deriving DecidableEq

/-- Oracle describing one file and the OS behaviour the scanner observes
on it.  `mincoreVec off len` is what the `mincore` system call returns
for the window mapped at byte offset `off` with byte length `len`:
either a failing `errno`, or the residency vector, given as the byte
value (an `unsigned char` in C) stored at each page index. -/
structure FileSpec where
  openOk : Bool
  fstatErr : Option Nat
  st_size : Nat
  mmapOk : Nat → Nat → Bool
  mincoreVec : Nat → Nat → Except Nat (Nat → Nat)

/-- src line 102: `#define N_PAGES_IN_WINDOW (32 * 1024)`. -/
def N_PAGES_IN_WINDOW : Nat := 32 * 1024

/-- The `errno` value `EINVAL` used at src line 186 (`rc = -EINVAL`). -/
def EINVAL : Nat := 22

/-- src line 146: `int n = (len / pagesize) + ((len % pagesize)? 1: 0);`
the number of pages of a window of `len` bytes. -/
def pageCeil (len ps : Nat) : Nat :=
  len / ps + (if len % ps ≠ 0 then 1 else 0)

/-- src lines 153-160: the counting loop of `do_mincore`.  It walks the
residency vector from index `n-1` down to `0` and increments the
accumulator for every entry whose low bit (`vec[n] & 0x1`) is set.  (The
C loop also zeroes the entry it just counted; that write only affects
the static scratch buffer, whose contents are fully overwritten by the
next `mincore` call before being read again, so it has no observable
effect and is not modelled.) -/
def mincore_count (vec : Nat → Nat) : Nat → Nat → Nat
  | 0, c => c
  | n + 1, c => mincore_count vec n (if vec n % 2 = 1 then c + 1 else c)

/-- src lines 141-163: `do_mincore`.  Computes the page count `n` of the
window, calls `mincore`; on failure warns and returns `-errno` leaving
the accumulator untouched, on success adds the number of set residency
bits to the accumulator and returns `0`. -/
def do_mincore (f : FileSpec) (off len ps c : Nat) : Int × Nat × List Event :=
  match f.mincoreVec off len with
  | Except.error e => (-(e : Int), c, [Event.warn_mincore])
  | Except.ok vec => (0, mincore_count vec (pageCeil len ps) c, [])

/-- src lines 179-181: `len = file_size - file_offset;
if (len >= window_size) len = window_size;` -/
def wlen (fs ws off : Nat) : Nat :=
  if fs - off ≥ ws then ws else fs - off

/-- src lines 176-198: the window loop of `fincore_fd`, with the current
`file_offset` and the accumulator as parameters.  Each iteration maps
the next window; on `mmap` failure it sets `rc = -EINVAL`, warns once
and breaks (the `warned_once` flag is therefore still `0` at the only
point where it is tested, and is not modelled separately); otherwise it
runs `do_mincore` and breaks on a nonzero `rc`.

The C loop condition is only `file_offset < file_size`; the extra
`0 < ws` conjunct records that the window size is positive (true
whenever `pagesize > 0`, and required for the C loop to make progress at
all), and every theorem below assumes a positive page size. -/
def fincore_fd_go (f : FileSpec) (ps ws off c : Nat) : Int × Nat × List Event :=
  if _h : off < f.st_size ∧ 0 < ws then
    let len := wlen f.st_size ws off
    if f.mmapOk off len then
      let r := do_mincore f off len ps c
      if r.1 = 0 then
        let rest := fincore_fd_go f ps ws (off + ws) r.2.1
        (rest.1, rest.2.1, Event.mmap off len :: (r.2.2 ++ rest.2.2))
      else
        (r.1, r.2.1, Event.mmap off len :: r.2.2)
    else
      (-(EINVAL : Int), c, [Event.mmap off len, Event.warn_mmap])
  else
    (0, c, [])
termination_by f.st_size - off
decreasing_by omega

/-- src lines 165-201: `fincore_fd`, which runs the window loop from
offset `0` with `window_size = N_PAGES_IN_WINDOW * pagesize` (line 170).
`c0` is the value of the caller's `count_incore` accumulator. -/
def fincore_fd (f : FileSpec) (ps c0 : Nat) : Int × Nat × List Event :=
  fincore_fd_go f ps (N_PAGES_IN_WINDOW * ps) 0 c0

/-- src lines 203-226: `fincore_name`.  On `open` failure it warns and
returns `0`; on `fstat` failure it warns and returns `-errno`; an empty
file is treated as success without scanning ("Empty file is no error");
otherwise it runs `fincore_fd`.  (The `close(fd)` call has no observable
effect that the claims mention and is not modelled.) -/
def fincore_name (f : FileSpec) (ps c0 : Nat) : Int × Nat × List Event :=
  if f.openOk = false then
    (0, c0, [Event.warn_open])
  else
    match f.fstatErr with
    | some e => (-(e : Int), c0, [Event.warn_fstat])
    | none =>
      if f.st_size ≠ 0 then
        fincore_fd f ps c0
      else
        (0, c0, [])

/-- One output line of `main`: src lines 131-134 print
`(count_incore, file_size, name)` on success, src lines 136-139 print
the failure marker `("failed", -1, name)`.  The `file_size` field is
`none` when `main`'s stat buffer was never filled in (its contents are
then indeterminate: `fstat` was not called, or failed). -/
inductive ReportLine where
  | count (count_incore : Nat) (file_size : Option Nat)
  | failed
deriving DecidableEq

/-- The value of `sb.st_size` that `main` would print for a file: it is
determined only when `open` and `fstat` both succeeded. -/
def sbValue (f : FileSpec) : Option Nat :=
  if f.openOk = true ∧ f.fstatErr = none then some f.st_size else none

/-- The report line `main` emits for one file (src lines 270-275):
`report_count` when `fincore_name` returned `0`, `report_failure`
otherwise. -/
def reportOf (ps : Nat) (f : FileSpec) : ReportLine :=
  if (fincore_name f ps 0).1 = 0 then
    ReportLine.count (fincore_name f ps 0).2.1 (sbValue f)
  else
    ReportLine.failed

/-- src lines 265-278: `main`'s file loop.  `rc` is the exit status
accumulator, initially `EXIT_SUCCESS = 0`; any failing file sets it to
`EXIT_FAILURE = 1`.  Each file gets a fresh `count_incore = 0`.  Returns
the report lines in order and the final exit status. -/
def main_loop (ps : Nat) : List FileSpec → Nat → List ReportLine × Nat
  | [], rc => ([], rc)
  | f :: rest, rc =>
    let r := fincore_name f ps 0
    let line := if r.1 = 0 then ReportLine.count r.2.1 (sbValue f) else ReportLine.failed
    let rc' := if r.1 = 0 then rc else 1
    let next := main_loop ps rest rc'
    (line :: next.1, next.2)

/-- A whole invocation of `main` on a list of files (after option
parsing, which is out of scope): exit status starts at
`EXIT_SUCCESS = 0`. -/
def main_run (ps : Nat) (files : List FileSpec) : List ReportLine × Nat :=
  main_loop ps files 0

/-- The sequence of windows `(offset, length)` the loop of `fincore_fd`
iterates over, in order: exactly the offsets `0, ws, 2*ws, ...` below
`file_size`, each with the length computed at src lines 179-181. -/
def windows (fs ws off : Nat) : List (Nat × Nat) :=
  if _h : off < fs ∧ 0 < ws then
    (off, wlen fs ws off) :: windows fs ws (off + ws)
  else
    []
termination_by fs - off
decreasing_by omega

/-- The number of pages with a set low residency bit among the `n` pages
starting at page index `a`, for a per-page residency byte map `res`.
This is the reference count a coherent `mincore` reports. -/
def residentPages (res : Nat → Nat) (a n : Nat) : Nat :=
  (List.range n).countP (fun i => decide (res (a + i) % 2 = 1))

/-- The resident-page count one window `(offset, length)` contributes
when `mincore` reports the residency map `res` (the window starts at
page index `offset / ps` and spans `pageCeil length ps` pages). -/
def windowCount (res : Nat → Nat) (ps : Nat) (w : Nat × Nat) : Nat :=
  residentPages res (w.1 / ps) (pageCeil w.2 ps)

/-! ### Concrete files used to instantiate the theorems below -/

/-- A fully cache-resident 1 MiB file on a healthy system. -/
def fileAllResident1M : FileSpec :=
  ⟨true, none, 1048576, fun _ _ => true, fun _ _ => Except.ok (fun _ => 1)⟩

/-- An empty file on a healthy system. -/
def fileEmpty : FileSpec :=
  ⟨true, none, 0, fun _ _ => true, fun _ _ => Except.ok (fun _ => 0)⟩

/-- A 3-byte file whose `mincore` answers are consistent with the
per-page residency map sending page `p` to byte `p`. -/
def fileSmallWindows : FileSpec :=
  ⟨true, none, 3, fun _ _ => true, fun o l => Except.ok (fun i => o / 1 + i)⟩

/-- A 5-byte file with every page resident. -/
def fileFiveBytes : FileSpec :=
  ⟨true, none, 5, fun _ _ => true, fun _ _ => Except.ok (fun _ => 1)⟩

/-- Another empty file on a healthy system. -/
def fileEmptyB : FileSpec :=
  ⟨true, none, 0, fun _ _ => true, fun _ _ => Except.ok (fun _ => 1)⟩

/-- A 5-byte file on which every `mmap` call fails. -/
def fileMmapFails : FileSpec :=
  ⟨true, none, 5, fun _ _ => false, fun _ _ => Except.ok (fun _ => 0)⟩

/-- A 5-byte file on which `mincore` always fails with `errno = 5`
(`EIO`). -/
def fileMincoreFails : FileSpec :=
  ⟨true, none, 5, fun _ _ => true, fun _ _ => Except.error 5⟩

/-- A file that cannot be opened. -/
def fileOpenFails : FileSpec :=
  ⟨false, none, 7, fun _ _ => true, fun _ _ => Except.ok (fun _ => 0)⟩

/-- A file of `32769` bytes (two windows at page size `1`): the first
window scans as all-resident, then `mincore` on the second window fails
with `errno = 5`. -/
def fileSecondWindowFails : FileSpec :=
  ⟨true, none, 32769, fun _ _ => true,
   fun o _ => if o = 0 then Except.ok (fun _ => 1) else Except.error 5⟩

/-- A 5-byte file on which the only `mmap` call fails. -/
def fileOneWindowMmapFails : FileSpec :=
  ⟨true, none, 5, fun _ _ => false, fun _ _ => Except.ok (fun _ => 0)⟩

/-! ### Arithmetic facts about `pageCeil` -/

theorem pageCeil_mul (ps : Nat) (hp : 0 < ps) (a : Nat) :
    pageCeil (a * ps) ps = a := by
  unfold pageCeil
  rw [Nat.mul_div_cancel _ hp, Nat.mul_mod_left]
  simp

theorem pageCeil_add_mul (ps : Nat) (hp : 0 < ps) (b a : Nat) :
    pageCeil (b + a * ps) ps = pageCeil b ps + a := by
  unfold pageCeil
  rw [Nat.add_mul_div_right _ _ hp, Nat.add_mul_mod_self_right]
  omega

theorem pageCeil_sub_mul (ps : Nat) (hp : 0 < ps) (fs a : Nat)
    (h : a * ps ≤ fs) :
    pageCeil (fs - a * ps) ps = pageCeil fs ps - a := by
  have h2 : fs - a * ps + a * ps = fs := by omega
  have h3 := pageCeil_add_mul ps hp (fs - a * ps) a
  rw [h2] at h3
  omega

theorem pageCeil_le_mul (ps : Nat) (hp : 0 < ps) (x m : Nat)
    (h : x ≤ m * ps) :
    pageCeil x ps ≤ m := by
  unfold pageCeil
  by_cases hmod : x % ps = 0
  · have : x / ps ≤ m * ps / ps := Nat.div_le_div_right h
    rw [Nat.mul_div_cancel _ hp] at this
    simp [hmod]
    omega
  · have hlt : x < m * ps := by
      rcases Nat.lt_or_ge x (m * ps) with h1 | h1
      · exact h1
      · have : x = m * ps := le_antisymm h h1
        rw [this, Nat.mul_mod_left] at hmod
        exact absurd rfl hmod
    have : x / ps < m := by
      rw [Nat.div_lt_iff_lt_mul hp]
      exact hlt
    simp [hmod]
    omega

theorem pageCeil_mono (ps : Nat) (x y : Nat) (h : x ≤ y) :
    pageCeil x ps ≤ pageCeil y ps := by
  unfold pageCeil
  have hd : x / ps ≤ y / ps := Nat.div_le_div_right h
  by_cases hx : x % ps = 0
  · simp [hx]; omega
  · by_cases hy : y % ps = 0
    · -- x is not a multiple of ps but y is, so x / ps < y / ps
      simp [hx, hy]
      have hxy : x < y := by
        rcases Nat.lt_or_ge x y with h1 | h1
        · exact h1
        · have : x = y := le_antisymm h h1
          rw [this] at hx; exact absurd hy hx
      -- y = ps * (y / ps); x < y and x not a multiple forces x / ps < y / ps
      have hyd : ps * (y / ps) = y := by
        have := Nat.div_add_mod y ps
        omega
      have : x / ps < y / ps := by
        by_contra hcon
        have hxd : x / ps = y / ps := by omega
        have h1 := Nat.div_add_mod x ps
        rw [hxd] at h1
        omega
      omega
    · simp [hx, hy]; omega

theorem pageCeil_eq_ceilDiv (ps : Nat) (hp : 0 < ps) (len : Nat) :
    pageCeil len ps = (len + ps - 1) / ps := by
  obtain ⟨q, r, hr, hlen⟩ : ∃ q r, r < ps ∧ len = ps * q + r :=
    ⟨len / ps, len % ps, Nat.mod_lt _ hp, (Nat.div_add_mod len ps).symm⟩
  subst hlen
  unfold pageCeil
  rw [Nat.mul_add_div hp, Nat.mul_add_mod]
  rw [Nat.div_eq_of_lt hr, Nat.mod_eq_of_lt hr]
  by_cases h0 : r = 0
  · subst h0
    have h1 : ps * q + 0 + ps - 1 = ps * q + (ps - 1) := by omega
    rw [h1, Nat.mul_add_div hp, Nat.div_eq_of_lt (by omega)]
    simp
  · have h1 : ps * q + r + ps - 1 = ps * q + (r + ps - 1) := by omega
    rw [h1, Nat.mul_add_div hp]
    have h2 : (r + ps - 1) / ps = 1 := by
      apply Nat.div_eq_of_lt_le
      · omega
      · have h3 : Nat.succ 1 * ps = ps + ps := by rw [Nat.succ_mul]; omega
        omega
    rw [h2]
    simp [h0]

/-! ### Counting lemmas -/

theorem mincore_count_eq (vec : Nat → Nat) :
    ∀ n c, mincore_count vec n c
      = c + (List.range n).countP (fun i => decide (vec i % 2 = 1)) := by
  intro n
  induction n with
  | zero => intro c; simp [mincore_count]
  | succ n ih =>
    intro c
    rw [mincore_count, ih, List.range_succ, List.countP_append]
    by_cases h : vec n % 2 = 1 <;> simp [h] <;> omega

theorem mincore_count_le (vec : Nat → Nat) (n c : Nat) :
    mincore_count vec n c ≤ c + n := by
  rw [mincore_count_eq]
  have := List.countP_le_length (l := List.range n)
    (p := fun i => decide (vec i % 2 = 1))
  simp at this
  omega

theorem mincore_count_pos (vec : Nat → Nat) (n c i : Nat)
    (hi : i < n) (hv : vec i % 2 = 1) :
    0 < mincore_count vec n c := by
  rw [mincore_count_eq]
  have : 0 < (List.range n).countP (fun i => decide (vec i % 2 = 1)) := by
    rw [List.countP_pos_iff]
    exact ⟨i, by simpa using hi, by simpa using hv⟩
  omega

theorem residentPages_add (res : Nat → Nat) (a m k : Nat) :
    residentPages res a (m + k)
      = residentPages res a m + residentPages res (a + m) k := by
  induction k with
  | zero => simp [residentPages]
  | succ k ih =>
    have h1 : m + (k + 1) = (m + k) + 1 := by omega
    unfold residentPages at *
    rw [h1, List.range_succ, List.countP_append, ih, List.range_succ,
      List.countP_append]
    simp only [List.countP_cons, List.countP_nil]
    have h2 : a + (m + k) = a + m + k := by omega
    simp [h2]
    omega

/-! ### `wlen` facts -/

theorem wlen_le (fs ws off : Nat) : wlen fs ws off ≤ ws ∨ wlen fs ws off = fs - off := by
  unfold wlen
  split
  · exact Or.inl (le_refl ws)
  · exact Or.inr rfl

theorem wlen_le_ws (fs ws off : Nat) (h : off < fs) : wlen fs ws off ≤ ws := by
  unfold wlen
  split
  · exact le_refl ws
  · omega

theorem wlen_full (fs ws off : Nat) (h : off + ws ≤ fs) : wlen fs ws off = ws := by
  unfold wlen
  split
  · rfl
  · omega

theorem wlen_last (fs ws off : Nat) (h : fs < off + ws) : wlen fs ws off = fs - off := by
  unfold wlen
  split
  · omega
  · rfl

/-! ### One-step unfolding of the window loop -/

theorem go_stop (f : FileSpec) (ps ws off c : Nat)
    (h : ¬ (off < f.st_size ∧ 0 < ws)) :
    fincore_fd_go f ps ws off c = (0, c, []) := by
  rw [fincore_fd_go]
  rw [dif_neg h]

theorem go_mmap_fail (f : FileSpec) (ps ws off c : Nat)
    (h1 : off < f.st_size) (h2 : 0 < ws)
    (hm : f.mmapOk off (wlen f.st_size ws off) = false) :
    fincore_fd_go f ps ws off c
      = (-(EINVAL : Int), c,
         [Event.mmap off (wlen f.st_size ws off), Event.warn_mmap]) := by
  rw [fincore_fd_go, dif_pos ⟨h1, h2⟩]
  simp [hm]

theorem go_mincore_err (f : FileSpec) (ps ws off c e : Nat)
    (h1 : off < f.st_size) (h2 : 0 < ws)
    (hm : f.mmapOk off (wlen f.st_size ws off) = true)
    (hv : f.mincoreVec off (wlen f.st_size ws off) = Except.error e)
    (he : 0 < e) :
    fincore_fd_go f ps ws off c
      = (-(e : Int), c,
         [Event.mmap off (wlen f.st_size ws off), Event.warn_mincore]) := by
  rw [fincore_fd_go, dif_pos ⟨h1, h2⟩]
  simp only [hm, if_true]
  rw [do_mincore, hv]
  have hne : ¬ (-(e : Int) = 0) := by omega
  simp [hne]

theorem go_success (f : FileSpec) (ps ws off c : Nat) (v : Nat → Nat)
    (h1 : off < f.st_size) (h2 : 0 < ws)
    (hm : f.mmapOk off (wlen f.st_size ws off) = true)
    (hv : f.mincoreVec off (wlen f.st_size ws off) = Except.ok v) :
    fincore_fd_go f ps ws off c
      = ((fincore_fd_go f ps ws (off + ws)
            (mincore_count v (pageCeil (wlen f.st_size ws off) ps) c)).1,
         (fincore_fd_go f ps ws (off + ws)
            (mincore_count v (pageCeil (wlen f.st_size ws off) ps) c)).2.1,
         Event.mmap off (wlen f.st_size ws off)
           :: (fincore_fd_go f ps ws (off + ws)
                (mincore_count v (pageCeil (wlen f.st_size ws off) ps) c)).2.2) := by
  rw [fincore_fd_go, dif_pos ⟨h1, h2⟩]
  simp only [hm, if_true]
  rw [do_mincore, hv]
  simp

/-- Degenerate step: `mincore` fails but `errno` is `0`, so `rc = -0 = 0`
and the C loop continues with the accumulator unchanged (this cannot
happen on a real kernel, where a failing system call sets a nonzero
`errno`; it is covered for totality of the model). -/
theorem go_mincore_err_zero (f : FileSpec) (ps ws off c : Nat)
    (h1 : off < f.st_size) (h2 : 0 < ws)
    (hm : f.mmapOk off (wlen f.st_size ws off) = true)
    (hv : f.mincoreVec off (wlen f.st_size ws off) = Except.error 0) :
    fincore_fd_go f ps ws off c
      = ((fincore_fd_go f ps ws (off + ws) c).1,
         (fincore_fd_go f ps ws (off + ws) c).2.1,
         Event.mmap off (wlen f.st_size ws off)
           :: Event.warn_mincore :: (fincore_fd_go f ps ws (off + ws) c).2.2) := by
  rw [fincore_fd_go, dif_pos ⟨h1, h2⟩]
  simp only [hm, if_true]
  rw [do_mincore, hv]
  simp

/-! ### Unfolding of `windows` -/

theorem windows_stop (fs ws off : Nat) (h : ¬ (off < fs ∧ 0 < ws)) :
    windows fs ws off = [] := by
  rw [windows, dif_neg h]

theorem windows_cons (fs ws off : Nat) (h1 : off < fs) (h2 : 0 < ws) :
    windows fs ws off = (off, wlen fs ws off) :: windows fs ws (off + ws) := by
  rw [windows, dif_pos ⟨h1, h2⟩]

/-! ### The loop as a fold over its windows (all-success case) -/

theorem go_fold (f : FileSpec) (ps ws : Nat) (res : Nat → Nat) (hw : 0 < ws)
    (hmmap : ∀ o l, f.mmapOk o l = true)
    (hmin : ∀ o l, f.mincoreVec o l = Except.ok (fun i => res (o / ps + i))) :
    ∀ m off c, f.st_size - off ≤ m →
      (fincore_fd_go f ps ws off c).1 = 0 ∧
      (fincore_fd_go f ps ws off c).2.1
        = c + ((windows f.st_size ws off).map (windowCount res ps)).sum := by
  intro m
  induction m with
  | zero =>
    intro off c hm
    have hoff : ¬ (off < f.st_size ∧ 0 < ws) := by omega
    rw [go_stop f ps ws off c hoff, windows_stop _ _ _ hoff]
    simp
  | succ m ih =>
    intro off c hm
    by_cases hoff : off < f.st_size
    · rw [go_success f ps ws off c _ hoff hw (hmmap _ _) (hmin _ _)]
      rw [windows_cons _ _ _ hoff hw]
      obtain ⟨ih1, ih2⟩ := ih (off + ws)
        (mincore_count (fun i => res (off / ps + i))
          (pageCeil (wlen f.st_size ws off) ps) c) (by omega)
      refine ⟨ih1, ?_⟩
      rw [ih2, mincore_count_eq]
      simp [windowCount, residentPages]
      omega
    · have hoff2 : ¬ (off < f.st_size ∧ 0 < ws) := by omega
      rw [go_stop f ps ws off c hoff2, windows_stop _ _ _ hoff2]
      simp

/-- Summing the per-window counts of the page-aligned windows starting
at window index `j` gives exactly the resident pages from page `j * n`
to the end of the file (window size `n * ps` bytes, i.e. `n` pages). -/
theorem windows_sum (res : Nat → Nat) (ps n fs : Nat) (hp : 0 < ps) (hn : 0 < n) :
    ∀ m j, fs - j * (n * ps) ≤ m →
      ((windows fs (n * ps) (j * (n * ps))).map (windowCount res ps)).sum
        = residentPages res (j * n) (pageCeil fs ps - j * n) := by
  have hws : 0 < n * ps := Nat.mul_pos hn hp
  intro m
  induction m with
  | zero =>
    intro j hm
    have hoff : ¬ (j * (n * ps) < fs ∧ 0 < n * ps) := by omega
    rw [windows_stop _ _ _ hoff]
    have hass : j * n * ps = j * (n * ps) := Nat.mul_assoc j n ps
    have hle : pageCeil fs ps ≤ j * n := pageCeil_le_mul ps hp fs (j * n) (by omega)
    have h0 : pageCeil fs ps - j * n = 0 := by omega
    rw [h0]
    simp [residentPages]
  | succ m ih =>
    intro j hm
    by_cases hoff : j * (n * ps) < fs
    · rw [windows_cons _ _ _ hoff hws, List.map_cons, List.sum_cons]
      have hsucc : j * (n * ps) + n * ps = (j + 1) * (n * ps) := by
        rw [Nat.succ_mul]
      have hass : j * n * ps = j * (n * ps) := Nat.mul_assoc j n ps
      have hdiv : j * (n * ps) / ps = j * n := by
        rw [← hass, Nat.mul_div_cancel _ hp]
      rw [hsucc, ih (j + 1) (by omega)]
      by_cases hfull : j * (n * ps) + n * ps ≤ fs
      · rw [wlen_full _ _ _ hfull]
        have hcap : pageCeil (n * ps) ps = n := pageCeil_mul ps hp n
        have hasj : (j + 1) * n * ps = (j + 1) * (n * ps) := Nat.mul_assoc _ n ps
        have hT : (j + 1) * n ≤ pageCeil fs ps := by
          have h1 : pageCeil ((j + 1) * n * ps) ps = (j + 1) * n :=
            pageCeil_mul ps hp _
          have h2 := pageCeil_mono ps ((j + 1) * n * ps) fs (by omega)
          omega
        have hadd := residentPages_add res (j * n) n
          (pageCeil fs ps - (j + 1) * n)
        have hjn : j * n + n = (j + 1) * n := by rw [Nat.succ_mul]
        have hsum : n + (pageCeil fs ps - (j + 1) * n)
            = pageCeil fs ps - j * n := by omega
        rw [hsum] at hadd
        rw [hjn] at hadd
        unfold windowCount
        simp only [hdiv, hcap]
        omega
      · rw [wlen_last _ _ _ (by omega)]
        have hlast : pageCeil (fs - j * (n * ps)) ps = pageCeil fs ps - j * n := by
          have := pageCeil_sub_mul ps hp fs (j * n) (by omega)
          rw [hass] at this
          exact this
        have hasj : (j + 1) * n * ps = (j + 1) * (n * ps) := Nat.mul_assoc _ n ps
        have hT : pageCeil fs ps ≤ (j + 1) * n :=
          pageCeil_le_mul ps hp fs ((j + 1) * n) (by omega)
        have h0 : pageCeil fs ps - (j + 1) * n = 0 := by omega
        rw [h0]
        unfold windowCount
        simp only [hdiv, hlast]
        simp [residentPages]
    · have hoff2 : ¬ (j * (n * ps) < fs ∧ 0 < n * ps) := by omega
      rw [windows_stop _ _ _ hoff2]
      have hass : j * n * ps = j * (n * ps) := Nat.mul_assoc j n ps
      have hle : pageCeil fs ps ≤ j * n := pageCeil_le_mul ps hp fs (j * n) (by omega)
      have h0 : pageCeil fs ps - j * n = 0 := by omega
      rw [h0]
      simp [residentPages]

/-- Whatever the OS oracle answers, the accumulator the window loop
returns never exceeds its starting value plus the pages remaining from
window index `j` on. -/
theorem go_bound (f : FileSpec) (ps n : Nat) (hp : 0 < ps) (hn : 0 < n) :
    ∀ m j c, f.st_size - j * (n * ps) ≤ m →
      (fincore_fd_go f ps (n * ps) (j * (n * ps)) c).2.1
        ≤ c + (pageCeil f.st_size ps - j * n) := by
  have hws : 0 < n * ps := Nat.mul_pos hn hp
  intro m
  induction m with
  | zero =>
    intro j c hm
    have hoff : ¬ (j * (n * ps) < f.st_size ∧ 0 < n * ps) := by omega
    rw [go_stop _ _ _ _ _ hoff]
    simp
  | succ m ih =>
    intro j c hm
    by_cases hoff : j * (n * ps) < f.st_size
    · have hsucc : j * (n * ps) + n * ps = (j + 1) * (n * ps) := by
        rw [Nat.succ_mul]
      have hass : j * n * ps = j * (n * ps) := Nat.mul_assoc j n ps
      have hasj : (j + 1) * n * ps = (j + 1) * (n * ps) := Nat.mul_assoc _ n ps
      have hjn : j * n + n = (j + 1) * n := by rw [Nat.succ_mul]
      -- bound on pages of the current window, by fullness
      have hwin : pageCeil (wlen f.st_size (n * ps) (j * (n * ps))) ps
            + (pageCeil f.st_size ps - (j + 1) * n)
          ≤ pageCeil f.st_size ps - j * n := by
        by_cases hfull : j * (n * ps) + n * ps ≤ f.st_size
        · rw [wlen_full _ _ _ hfull, pageCeil_mul ps hp n]
          have hT : (j + 1) * n ≤ pageCeil f.st_size ps := by
            have h1 : pageCeil ((j + 1) * n * ps) ps = (j + 1) * n :=
              pageCeil_mul ps hp _
            have h2 := pageCeil_mono ps ((j + 1) * n * ps) f.st_size (by omega)
            omega
          omega
        · rw [wlen_last _ _ _ (by omega)]
          have hlast : pageCeil (f.st_size - j * (n * ps)) ps
              = pageCeil f.st_size ps - j * n := by
            have := pageCeil_sub_mul ps hp f.st_size (j * n) (by omega)
            rw [hass] at this
            exact this
          have hT : pageCeil f.st_size ps ≤ (j + 1) * n :=
            pageCeil_le_mul ps hp f.st_size ((j + 1) * n) (by omega)
          omega
      cases hmOk : f.mmapOk (j * (n * ps))
          (wlen f.st_size (n * ps) (j * (n * ps))) with
      | false =>
        rw [go_mmap_fail _ _ _ _ _ hoff hws hmOk]
        simp
      | true =>
        cases hvOk : f.mincoreVec (j * (n * ps))
            (wlen f.st_size (n * ps) (j * (n * ps))) with
        | ok v =>
          rw [go_success _ _ _ _ _ _ hoff hws hmOk hvOk]
          dsimp only
          have hcnt := mincore_count_le v
            (pageCeil (wlen f.st_size (n * ps) (j * (n * ps))) ps) c
          have hih := ih (j + 1)
            (mincore_count v
              (pageCeil (wlen f.st_size (n * ps) (j * (n * ps))) ps) c)
            (by omega)
          rw [← hsucc] at hih
          omega
        | error e =>
          cases e with
          | zero =>
            rw [go_mincore_err_zero _ _ _ _ _ hoff hws hmOk hvOk]
            dsimp only
            have hih := ih (j + 1) c (by omega)
            rw [← hsucc] at hih
            omega
          | succ e =>
            rw [go_mincore_err _ _ _ _ _ _ hoff hws hmOk hvOk (by omega)]
            simp
    · have hoff2 : ¬ (j * (n * ps) < f.st_size ∧ 0 < n * ps) := by omega
      rw [go_stop _ _ _ _ _ hoff2]
      simp

/-- Running the loop across `j` windows that all map and query
successfully only accumulates counts and `mmap` events: the result is
that of the loop restarted at offset `off + j * ws` from some
accumulator value `c'`, with the `j` mapping events prepended. -/
theorem go_skip (f : FileSpec) (ps ws : Nat) (hw : 0 < ws) :
    ∀ (j off c : Nat),
      (∀ i, i < j → off + i * ws < f.st_size) →
      (∀ i, i < j →
        f.mmapOk (off + i * ws) (wlen f.st_size ws (off + i * ws)) = true) →
      (∀ i, i < j →
        ∃ v, f.mincoreVec (off + i * ws) (wlen f.st_size ws (off + i * ws))
          = Except.ok v) →
      ∃ c', fincore_fd_go f ps ws off c
        = ((fincore_fd_go f ps ws (off + j * ws) c').1,
           (fincore_fd_go f ps ws (off + j * ws) c').2.1,
           (List.range j).map
               (fun i => Event.mmap (off + i * ws)
                 (wlen f.st_size ws (off + i * ws)))
             ++ (fincore_fd_go f ps ws (off + j * ws) c').2.2) := by
  intro j
  induction j with
  | zero =>
    intro off c _ _ _
    refine ⟨c, ?_⟩
    simp
  | succ j ih =>
    intro off c hlt hm hv
    have harith : ∀ i : Nat, off + ws + i * ws = off + (i + 1) * ws := by
      intro i
      rw [Nat.succ_mul]
      omega
    have h00 : off + 0 * ws = off := by omega
    have hoff : off < f.st_size := by
      have := hlt 0 (Nat.succ_pos j)
      rwa [h00] at this
    obtain ⟨v, hv0⟩ := hv 0 (Nat.succ_pos j)
    rw [h00] at hv0
    have hm0 := hm 0 (Nat.succ_pos j)
    rw [h00] at hm0
    obtain ⟨c', hc'⟩ := ih (off + ws)
      (mincore_count v (pageCeil (wlen f.st_size ws off) ps) c)
      (fun i hi => by rw [harith i]; exact hlt (i + 1) (by omega))
      (fun i hi => by rw [harith i]; exact hm (i + 1) (by omega))
      (fun i hi => by rw [harith i]; exact hv (i + 1) (by omega))
    refine ⟨c', ?_⟩
    rw [go_success f ps ws off c v hoff hw hm0 hv0, hc']
    dsimp only
    rw [harith j]
    refine congrArg (fun l => ((fincore_fd_go f ps ws (off + (j + 1) * ws) c').1,
      (fincore_fd_go f ps ws (off + (j + 1) * ws) c').2.1, l)) ?_
    rw [List.range_succ_eq_map, List.map_cons, List.map_map]
    simp only [Nat.zero_mul, Nat.add_zero, List.cons_append]
    refine congrArg (fun l => Event.mmap off (wlen f.st_size ws off) :: l) ?_
    refine congrArg (fun l => l ++ (fincore_fd_go f ps ws (off + (j + 1) * ws) c').2.2) ?_
    apply List.map_congr_left
    intro i _
    simp only [Function.comp]
    rw [harith i]

/-- Every `mmap` event the loop emits concerns a window of byte length
at most the window size. -/
theorem go_mmap_mem (f : FileSpec) (ps ws : Nat) :
    ∀ m off c o l, f.st_size - off ≤ m →
      Event.mmap o l ∈ (fincore_fd_go f ps ws off c).2.2 → l ≤ ws := by
  intro m
  induction m with
  | zero =>
    intro off c o l hm hmem
    have hoff : ¬ (off < f.st_size ∧ 0 < ws) := by omega
    rw [go_stop _ _ _ _ _ hoff] at hmem
    simp at hmem
  | succ m ih =>
    intro off c o l hm hmem
    by_cases hoff : off < f.st_size ∧ 0 < ws
    · have hwl : wlen f.st_size ws off ≤ ws := wlen_le_ws _ _ _ hoff.1
      cases hmOk : f.mmapOk off (wlen f.st_size ws off) with
      | false =>
        rw [go_mmap_fail _ _ _ _ _ hoff.1 hoff.2 hmOk] at hmem
        simp at hmem
        omega
      | true =>
        cases hvOk : f.mincoreVec off (wlen f.st_size ws off) with
        | ok v =>
          rw [go_success _ _ _ _ _ _ hoff.1 hoff.2 hmOk hvOk] at hmem
          dsimp only at hmem
          rcases List.mem_cons.mp hmem with h | h
          · have : l = wlen f.st_size ws off := by
              injection h with h1 h2
            omega
          · exact ih (off + ws) _ o l (by omega) h
        | error e =>
          cases e with
          | zero =>
            rw [go_mincore_err_zero _ _ _ _ _ hoff.1 hoff.2 hmOk hvOk] at hmem
            dsimp only at hmem
            rcases List.mem_cons.mp hmem with h | h
            · have : l = wlen f.st_size ws off := by
                injection h with h1 h2
              omega
            · rcases List.mem_cons.mp h with h2 | h2
              · exact absurd h2 (by simp)
              · exact ih (off + ws) _ o l (by omega) h2
          | succ e =>
            rw [go_mincore_err _ _ _ _ _ _ hoff.1 hoff.2 hmOk hvOk (by omega)] at hmem
            simp at hmem
            omega
    · rw [go_stop _ _ _ _ _ hoff] at hmem
      simp at hmem

/-- Shifting a window list: scanning a file grown by one window size,
starting one window later, yields the same windows translated by
`ws`. -/
theorem windows_shift (ws : Nat) :
    ∀ m fs off, fs - off ≤ m →
      windows (fs + ws) ws (off + ws)
        = (windows fs ws off).map (fun w => (w.1 + ws, w.2)) := by
  intro m
  induction m with
  | zero =>
    intro fs off hm
    have h1 : ¬ (off < fs ∧ 0 < ws) := by omega
    have h2 : ¬ (off + ws < fs + ws ∧ 0 < ws) := by omega
    rw [windows_stop _ _ _ h1, windows_stop _ _ _ h2]
    simp
  | succ m ih =>
    intro fs off hm
    by_cases h : off < fs ∧ 0 < ws
    · rw [windows_cons _ _ _ h.1 h.2,
        windows_cons (fs + ws) ws (off + ws) (by omega) h.2]
      have hwl : wlen (fs + ws) ws (off + ws) = wlen fs ws off := by
        unfold wlen
        have : fs + ws - (off + ws) = fs - off := by omega
        rw [this]
      rw [hwl, List.map_cons]
      have htail := ih fs (off + ws) (by omega)
      rw [← htail]
    · have h2 : ¬ (off + ws < fs + ws ∧ 0 < ws) := by omega
      rw [windows_stop _ _ _ h, windows_stop _ _ _ h2]
      simp

/-- Closed form of the window list for a file of `k` full windows plus a
trailing partial window of `r` bytes. -/
theorem windows_closed (ws r : Nat) (hr : 0 < r) (hrw : r < ws) :
    ∀ k, windows (k * ws + r) ws 0
      = (List.range (k + 1)).map (fun i => (i * ws, if i = k then r else ws)) := by
  intro k
  induction k with
  | zero =>
    rw [windows_cons (0 * ws + r) ws 0 (by omega) (by omega)]
    have h1 : wlen (0 * ws + r) ws 0 = r := by
      rw [wlen_last _ _ _ (by omega)]
      omega
    have h2 : windows (0 * ws + r) ws (0 + ws) = [] :=
      windows_stop _ _ _ (by omega)
    rw [h1, h2]
    simp [List.range_succ]
  | succ k ih =>
    have hws : 0 < ws := by omega
    rw [windows_cons ((k + 1) * ws + r) ws 0 (by omega) hws]
    have hgrow : (k + 1) * ws + r = (k * ws + r) + ws := by
      rw [Nat.succ_mul]
      omega
    have h1 : wlen ((k + 1) * ws + r) ws 0 = ws := by
      apply wlen_full
      rw [Nat.succ_mul]
      omega
    have h2 : windows ((k + 1) * ws + r) ws (0 + ws)
        = (windows (k * ws + r) ws 0).map (fun w => (w.1 + ws, w.2)) := by
      rw [hgrow]
      exact windows_shift ws (k * ws + r) (k * ws + r) 0 (by omega)
    rw [h1, h2, ih]
    rw [List.map_map, List.range_succ_eq_map (k + 1), List.map_cons, List.map_map]
    simp only [Nat.zero_mul, List.cons_append]
    refine congrArg (fun l => (0, ws) :: l) ?_
    apply List.map_congr_left
    intro i hi
    simp only [Function.comp]
    have hii : i < k + 1 := List.mem_range.mp hi
    have hmul : (i + 1) * ws = i * ws + ws := Nat.succ_mul i ws
    by_cases hik : i = k
    · subst hik
      simp [hmul]
    · have : ¬ (i + 1 = k + 1) := by omega
      simp [hik, this, hmul]

/-! ### The `main` loop, characterized -/

theorem main_loop_fst (ps : Nat) :
    ∀ (files : List FileSpec) (rc : Nat),
      (main_loop ps files rc).1 = files.map (reportOf ps) := by
  intro files
  induction files with
  | nil => intro rc; simp [main_loop]
  | cons f rest ih =>
    intro rc
    by_cases h : (fincore_name f ps 0).1 = 0
    · simp [main_loop, reportOf, h, ih]
    · simp [main_loop, reportOf, h, ih]

theorem main_loop_snd (ps : Nat) :
    ∀ (files : List FileSpec) (rc : Nat),
      (main_loop ps files rc).2
        = if files.all (fun f => decide ((fincore_name f ps 0).1 = 0))
          then rc else 1 := by
  intro files
  induction files with
  | nil => intro rc; simp [main_loop]
  | cons f rest ih =>
    intro rc
    by_cases h : (fincore_name f ps 0).1 = 0
    · simp [main_loop, h, ih]
    · simp [main_loop, h, ih]

/-! ## The claims -/

/-- Claim C1: for every file whose scan maps every window and queries
residency without failure, the scanner succeeds and returns the total
number of cache-resident pages across the whole file — the number of
pages `p` below `ceil(file_size / page_size)` whose residency flag, as
the OS query reports it, has its low bit set. -/
theorem fincore_fd_total_count (ps : Nat) (f : FileSpec) (res : Nat → Nat)
    (hp : 0 < ps)
    (hmmap : ∀ o l, f.mmapOk o l = true)
    (hmin : ∀ o l, f.mincoreVec o l = Except.ok (fun i => res (o / ps + i))) :
    (fincore_fd f ps 0).1 = 0 ∧
    (fincore_fd f ps 0).2.1 = residentPages res 0 (pageCeil f.st_size ps) := by
  have hnp : 0 < N_PAGES_IN_WINDOW := by decide
  have hws : 0 < N_PAGES_IN_WINDOW * ps := Nat.mul_pos hnp hp
  have hfold := go_fold f ps (N_PAGES_IN_WINDOW * ps) res hws hmmap hmin
    f.st_size 0 0 (by omega)
  have hsum := windows_sum res ps N_PAGES_IN_WINDOW f.st_size hp hnp
    f.st_size 0 (by omega)
  simp only [Nat.zero_mul, Nat.sub_zero] at hsum
  rw [fincore_fd]
  refine ⟨hfold.1, ?_⟩
  rw [hfold.2, hsum]
  omega

set_option maxRecDepth 8192 in
/-- Witness for C1: an all-resident 1 MiB file at a 4 KiB page size
yields a resident-page count of 256. -/
theorem fincore_fd_total_count_witness :
    (fincore_fd fileAllResident1M 4096 0).1 = 0 ∧
    (fincore_fd fileAllResident1M 4096 0).2.1 = 256 := by
  have h := fincore_fd_total_count 4096 fileAllResident1M (fun _ => 1)
    (by decide) (fun _ _ => rfl) (fun _ _ => rfl)
  have h2 : residentPages (fun _ => 1) 0 (pageCeil fileAllResident1M.st_size 4096)
      = 256 := by decide
  exact ⟨h.1, by rw [h.2, h2]⟩

/-- Claim C2: a file of size `0` scans to a count of `0` with a success
return code, mapping no window and emitting no diagnostic. -/
theorem fincore_name_empty_file (ps : Nat) (f : FileSpec)
    (hopen : f.openOk = true) (hstat : f.fstatErr = none)
    (hsize : f.st_size = 0) :
    fincore_name f ps 0 = (0, 0, []) ∧ fincore_fd f ps 0 = (0, 0, []) := by
  constructor
  · simp [fincore_name, hopen, hstat, hsize]
  · rw [fincore_fd]
    exact go_stop _ _ _ _ _ (by omega)

/-- Witness for C2 at a concrete empty file. -/
theorem fincore_name_empty_file_witness :
    fincore_name fileEmpty 4096 0 = (0, 0, [])
    ∧ fincore_fd fileEmpty 4096 0 = (0, 0, []) :=
  fincore_name_empty_file 4096 fileEmpty rfl rfl rfl

/-- Claim C3: with a window capacity of `n` pages (`n * ps` bytes) the
loop partitions `[0, file_size)` into consecutive windows at strictly
increasing offsets `0, n*ps, 2*(n*ps), ...`, each of length
`min(capacity, remaining)`; for `file_size = k * capacity + r` with
`0 < r < capacity` there are exactly `k + 1` windows, the last of length
`r`; the scan succeeds, its total equals the sum of the per-window
counts, and that sum equals the capacity-independent whole-file resident
page count. -/
theorem fincore_fd_windowing (ps n k r : Nat) (f : FileSpec) (res : Nat → Nat)
    (hp : 0 < ps) (hn : 0 < n) (hr : 0 < r) (hrw : r < n * ps)
    (hfs : f.st_size = k * (n * ps) + r)
    (hmmap : ∀ o l, f.mmapOk o l = true)
    (hmin : ∀ o l, f.mincoreVec o l = Except.ok (fun i => res (o / ps + i))) :
    windows f.st_size (n * ps) 0
        = (List.range (k + 1)).map
            (fun i => (i * (n * ps), if i = k then r else n * ps))
    ∧ (windows f.st_size (n * ps) 0).length = k + 1
    ∧ (fincore_fd_go f ps (n * ps) 0 0).1 = 0
    ∧ (fincore_fd_go f ps (n * ps) 0 0).2.1
        = ((windows f.st_size (n * ps) 0).map (windowCount res ps)).sum
    ∧ ((windows f.st_size (n * ps) 0).map (windowCount res ps)).sum
        = residentPages res 0 (pageCeil f.st_size ps) := by
  have hws : 0 < n * ps := Nat.mul_pos hn hp
  have hclosed := windows_closed (n * ps) r hr hrw k
  have hfold := go_fold f ps (n * ps) res hws hmmap hmin f.st_size 0 0 (by omega)
  have hsum := windows_sum res ps n f.st_size hp hn f.st_size 0 (by omega)
  simp only [Nat.zero_mul, Nat.sub_zero] at hsum
  refine ⟨?_, ?_, hfold.1, ?_, hsum⟩
  · rw [hfs]
    exact hclosed
  · rw [hfs, hclosed]
    simp
  · rw [hfold.2]
    omega

/-- Witness for C3: a 3-byte file, page size 1, capacity 2 pages
(`k = 1`, `r = 1`). -/
theorem fincore_fd_windowing_witness :
    windows fileSmallWindows.st_size (2 * 1) 0
        = (List.range (1 + 1)).map
            (fun i => (i * (2 * 1), if i = 1 then 1 else 2 * 1))
    ∧ (windows fileSmallWindows.st_size (2 * 1) 0).length = 1 + 1
    ∧ (fincore_fd_go fileSmallWindows 1 (2 * 1) 0 0).1 = 0
    ∧ (fincore_fd_go fileSmallWindows 1 (2 * 1) 0 0).2.1
        = ((windows fileSmallWindows.st_size (2 * 1) 0).map
            (windowCount (fun p => p) 1)).sum
    ∧ ((windows fileSmallWindows.st_size (2 * 1) 0).map
          (windowCount (fun p => p) 1)).sum
        = residentPages (fun p => p) 0 (pageCeil fileSmallWindows.st_size 1) :=
  fincore_fd_windowing 1 2 1 1 fileSmallWindows (fun p => p)
    (by decide) (by decide) (by decide) (by decide) rfl
    (fun _ _ => rfl) (fun _ _ => rfl)

/-- Claim C4: for every window, the number of pages the residency query
examines is computed from the window's byte length by ceiling division
by the page size — `do_mincore` walks exactly `pageCeil len ps` vector
entries, and `pageCeil len ps` is the rounded-up quotient
`(len + ps - 1) / ps`, not the fixed window capacity. -/
theorem do_mincore_ceiling (f : FileSpec) (off len ps c : Nat) (vec : Nat → Nat)
    (hp : 0 < ps)
    (hok : f.mincoreVec off len = Except.ok vec) :
    do_mincore f off len ps c
      = (0, mincore_count vec (pageCeil len ps) c, [])
    ∧ pageCeil len ps = (len + ps - 1) / ps := by
  constructor
  · rw [do_mincore, hok]
  · exact pageCeil_eq_ceilDiv ps hp len

/-- Witness for C4: a trailing 5-byte window at page size 4 examines
`pageCeil 5 4 = 2` pages. -/
theorem do_mincore_ceiling_witness :
    (do_mincore fileFiveBytes 0 5 4 0
        = (0, mincore_count (fun _ => 1) (pageCeil 5 4) 0, [])
      ∧ pageCeil 5 4 = (5 + 4 - 1) / 4)
    ∧ pageCeil 5 4 = 2 :=
  ⟨do_mincore_ceiling fileFiveBytes 0 5 4 0 (fun _ => 1) (by decide) rfl,
   by decide⟩

/-- Claim C5: whenever a scan completes without error the final
resident-page count lies between `0` and `ceil(file_size / page_size)`
(the upper bound in fact holds for every outcome of the oracle). -/
theorem fincore_name_count_invariant (ps : Nat) (f : FileSpec)
    (hp : 0 < ps)
    (hs : (fincore_name f ps 0).1 = 0) :
    0 ≤ (fincore_name f ps 0).2.1
    ∧ (fincore_name f ps 0).2.1 ≤ pageCeil f.st_size ps := by
  refine ⟨Nat.zero_le _, ?_⟩
  by_cases hopen : f.openOk = false
  · simp [fincore_name, hopen]
  · cases hstat : f.fstatErr with
    | some e => simp [fincore_name, hopen, hstat]
    | none =>
      by_cases hsz : f.st_size ≠ 0
      · have hnp : 0 < N_PAGES_IN_WINDOW := by decide
        have h := go_bound f ps N_PAGES_IN_WINDOW hp hnp f.st_size 0 0 (by omega)
        simp only [Nat.zero_mul, Nat.sub_zero] at h
        have hname : fincore_name f ps 0 = fincore_fd f ps 0 := by
          simp [fincore_name, hopen, hstat, hsz]
        rw [hname, fincore_fd]
        omega
      · simp [fincore_name, hopen, hstat, hsz]

/-- Witness for C5 at a concrete successfully scanned file. -/
theorem fincore_name_count_invariant_witness :
    0 ≤ (fincore_name fileEmptyB 4096 0).2.1
    ∧ (fincore_name fileEmptyB 4096 0).2.1 ≤ pageCeil fileEmptyB.st_size 4096 :=
  fincore_name_count_invariant 4096 fileEmptyB (by decide) rfl

/-- Claim C6: if the scan reaches window `j` (all earlier windows mapped
and queried successfully) and mapping window `j` fails, then the scan
aborts with the distinguishable failure code `-EINVAL`: no window beyond
offset `j * window_size` is ever mapped, and the fatal mapping
diagnostic is emitted exactly once for the file. -/
theorem fincore_fd_mmap_failure_aborts (ps : Nat) (f : FileSpec) (j : Nat)
    (hp : 0 < ps)
    (hj : j * (N_PAGES_IN_WINDOW * ps) < f.st_size)
    (hm : ∀ i, i < j → f.mmapOk (i * (N_PAGES_IN_WINDOW * ps))
      (wlen f.st_size (N_PAGES_IN_WINDOW * ps)
        (i * (N_PAGES_IN_WINDOW * ps))) = true)
    (hv : ∀ i, i < j → ∃ v, f.mincoreVec (i * (N_PAGES_IN_WINDOW * ps))
      (wlen f.st_size (N_PAGES_IN_WINDOW * ps)
        (i * (N_PAGES_IN_WINDOW * ps))) = Except.ok v)
    (hfail : f.mmapOk (j * (N_PAGES_IN_WINDOW * ps))
      (wlen f.st_size (N_PAGES_IN_WINDOW * ps)
        (j * (N_PAGES_IN_WINDOW * ps))) = false) :
    (fincore_fd f ps 0).1 = -(EINVAL : Int)
    ∧ (fincore_fd f ps 0).1 ≠ 0
    ∧ ((fincore_fd f ps 0).2.2).countP
        (fun ev => decide (ev = Event.warn_mmap)) = 1
    ∧ ∀ o l, Event.mmap o l ∈ (fincore_fd f ps 0).2.2
        → o ≤ j * (N_PAGES_IN_WINDOW * ps) := by
  have hnp : 0 < N_PAGES_IN_WINDOW := by decide
  have hws : 0 < N_PAGES_IN_WINDOW * ps := Nat.mul_pos hnp hp
  obtain ⟨c', hc⟩ := go_skip f ps (N_PAGES_IN_WINDOW * ps) hws j 0 0
    (fun i hi => by
      have h1 : i * (N_PAGES_IN_WINDOW * ps) ≤ j * (N_PAGES_IN_WINDOW * ps) :=
        Nat.mul_le_mul_right _ (Nat.le_of_lt hi)
      omega)
    (fun i hi => by simpa using hm i hi)
    (fun i hi => by simpa using hv i hi)
  simp only [Nat.zero_add] at hc
  rw [go_mmap_fail f ps (N_PAGES_IN_WINDOW * ps)
    (j * (N_PAGES_IN_WINDOW * ps)) c' hj hws hfail] at hc
  dsimp only at hc
  rw [fincore_fd, hc]
  refine ⟨rfl, ?_, ?_, ?_⟩
  · dsimp only
    decide
  · rw [List.countP_append, List.countP_map]
    have h0 : List.countP
        ((fun ev => decide (ev = Event.warn_mmap)) ∘
          (fun i => Event.mmap (i * (N_PAGES_IN_WINDOW * ps))
            (wlen f.st_size (N_PAGES_IN_WINDOW * ps)
              (i * (N_PAGES_IN_WINDOW * ps)))))
        (List.range j) = 0 := by
      apply List.countP_eq_zero.mpr
      intro a _
      simp [Function.comp]
    rw [h0]
    simp [List.countP_cons]
  · intro o l hmem
    rcases List.mem_append.mp hmem with h | h
    · obtain ⟨i, hi, heq⟩ := List.mem_map.mp h
      have hij : i < j := List.mem_range.mp hi
      have h1 : i * (N_PAGES_IN_WINDOW * ps) ≤ j * (N_PAGES_IN_WINDOW * ps) :=
        Nat.mul_le_mul_right _ (Nat.le_of_lt hij)
      injection heq with h2 h3
      omega
    · rcases List.mem_cons.mp h with h2 | h2
      · injection h2 with h3 h4
        omega
      · rcases List.mem_cons.mp h2 with h3 | h3
        · exact absurd h3 (by simp)
        · exact absurd h3 (by simp)

/-- Witness for C6: a 5-byte file whose very first window fails to map
(page size 1, `j = 0`). -/
theorem fincore_fd_mmap_failure_aborts_witness :
    (fincore_fd fileMmapFails 1 0).1 = -(EINVAL : Int)
    ∧ (fincore_fd fileMmapFails 1 0).1 ≠ 0
    ∧ ((fincore_fd fileMmapFails 1 0).2.2).countP
        (fun ev => decide (ev = Event.warn_mmap)) = 1
    ∧ ∀ o l, Event.mmap o l ∈ (fincore_fd fileMmapFails 1 0).2.2
        → o ≤ 0 * (N_PAGES_IN_WINDOW * 1) :=
  fincore_fd_mmap_failure_aborts 1 fileMmapFails 0 (by decide) (by decide)
    (fun i hi => absurd hi (Nat.not_lt_zero i))
    (fun i hi => absurd hi (Nat.not_lt_zero i))
    rfl

/-- Claim C7: if the scan reaches window `j` and the residency query on
that mapped window fails with `errno = e > 0`, then the scan aborts
immediately — no window beyond offset `j * window_size` is mapped — and
the scan's result is the propagated error code `-e`. -/
theorem fincore_fd_mincore_failure_propagates (ps : Nat) (f : FileSpec) (j e : Nat)
    (hp : 0 < ps)
    (hj : j * (N_PAGES_IN_WINDOW * ps) < f.st_size)
    (hm : ∀ i, i < j → f.mmapOk (i * (N_PAGES_IN_WINDOW * ps))
      (wlen f.st_size (N_PAGES_IN_WINDOW * ps)
        (i * (N_PAGES_IN_WINDOW * ps))) = true)
    (hv : ∀ i, i < j → ∃ v, f.mincoreVec (i * (N_PAGES_IN_WINDOW * ps))
      (wlen f.st_size (N_PAGES_IN_WINDOW * ps)
        (i * (N_PAGES_IN_WINDOW * ps))) = Except.ok v)
    (hmj : f.mmapOk (j * (N_PAGES_IN_WINDOW * ps))
      (wlen f.st_size (N_PAGES_IN_WINDOW * ps)
        (j * (N_PAGES_IN_WINDOW * ps))) = true)
    (hvj : f.mincoreVec (j * (N_PAGES_IN_WINDOW * ps))
      (wlen f.st_size (N_PAGES_IN_WINDOW * ps)
        (j * (N_PAGES_IN_WINDOW * ps))) = Except.error e)
    (he : 0 < e) :
    (fincore_fd f ps 0).1 = -(e : Int)
    ∧ (fincore_fd f ps 0).1 ≠ 0
    ∧ ∀ o l, Event.mmap o l ∈ (fincore_fd f ps 0).2.2
        → o ≤ j * (N_PAGES_IN_WINDOW * ps) := by
  have hnp : 0 < N_PAGES_IN_WINDOW := by decide
  have hws : 0 < N_PAGES_IN_WINDOW * ps := Nat.mul_pos hnp hp
  obtain ⟨c', hc⟩ := go_skip f ps (N_PAGES_IN_WINDOW * ps) hws j 0 0
    (fun i hi => by
      have h1 : i * (N_PAGES_IN_WINDOW * ps) ≤ j * (N_PAGES_IN_WINDOW * ps) :=
        Nat.mul_le_mul_right _ (Nat.le_of_lt hi)
      omega)
    (fun i hi => by simpa using hm i hi)
    (fun i hi => by simpa using hv i hi)
  simp only [Nat.zero_add] at hc
  rw [go_mincore_err f ps (N_PAGES_IN_WINDOW * ps)
    (j * (N_PAGES_IN_WINDOW * ps)) c' e hj hws hmj hvj he] at hc
  dsimp only at hc
  rw [fincore_fd, hc]
  refine ⟨rfl, ?_, ?_⟩
  · dsimp only
    omega
  intro o l hmem
  rcases List.mem_append.mp hmem with h | h
  · obtain ⟨i, hi, heq⟩ := List.mem_map.mp h
    have hij : i < j := List.mem_range.mp hi
    have h1 : i * (N_PAGES_IN_WINDOW * ps) ≤ j * (N_PAGES_IN_WINDOW * ps) :=
      Nat.mul_le_mul_right _ (Nat.le_of_lt hij)
    injection heq with h2 h3
    omega
  · rcases List.mem_cons.mp h with h2 | h2
    · injection h2 with h3 h4
      omega
    · rcases List.mem_cons.mp h2 with h3 | h3
      · exact absurd h3 (by simp)
      · exact absurd h3 (by simp)

/-- Witness for C7: a 5-byte file whose first (and only) window maps but
whose residency query fails with `errno = 5`; the scan returns `-5`. -/
theorem fincore_fd_mincore_failure_propagates_witness :
    (fincore_fd fileMincoreFails 1 0).1 = -(5 : Int)
    ∧ (fincore_fd fileMincoreFails 1 0).1 ≠ 0
    ∧ ∀ o l, Event.mmap o l ∈ (fincore_fd fileMincoreFails 1 0).2.2
        → o ≤ 0 * (N_PAGES_IN_WINDOW * 1) :=
  fincore_fd_mincore_failure_propagates 1 fileMincoreFails 0 5 (by decide) (by decide)
    (fun i hi => absurd hi (Nat.not_lt_zero i))
    (fun i hi => absurd hi (Nat.not_lt_zero i))
    rfl rfl (by decide)

/-- Counterexample to C8: a file that cannot be opened.  `fincore_name`
warns but returns `0` (src lines 210-213), so `main` prints a success
line (`report_count`, with count `0` and the never-filled stat buffer's
size) rather than the failure marker, and the process exit status stays
`EXIT_SUCCESS = 0` although the file was never scanned. -/
theorem main_open_failure_cex :
    (main_run 4096 [fileOpenFails]).1 = [ReportLine.count 0 none]
    ∧ (main_run 4096 [fileOpenFails]).2 = 0
    ∧ ReportLine.count 0 none ≠ ReportLine.failed :=
  ⟨rfl, rfl, by decide⟩

/-- Claim C8, amended: every file gets exactly one report line, in
order; a file whose `fstat` or scan fails gets the failure marker and
any such file forces a failure exit status while the remaining files are
still processed — the exit status is `0` exactly when every
`fincore_name` call returned `0`.  However a file that cannot be
*opened* is reported with a success line (count `0`, indeterminate
size) and leaves the exit status untouched. -/
theorem main_reports_amended (ps : Nat) (files : List FileSpec) :
    (main_run ps files).1 = files.map (reportOf ps)
    ∧ ((main_run ps files).2 = 0
        ↔ ∀ f ∈ files, (fincore_name f ps 0).1 = 0)
    ∧ ∀ f ∈ files, f.openOk = false →
        reportOf ps f = ReportLine.count 0 none := by
  refine ⟨main_loop_fst ps files 0, ?_, ?_⟩
  · rw [main_run, main_loop_snd ps files 0]
    by_cases hall : files.all (fun f => decide ((fincore_name f ps 0).1 = 0)) = true
    · rw [if_pos hall]
      simp only [true_iff]
      intro f hf
      have := List.all_eq_true.mp hall f hf
      simpa using this
    · rw [if_neg hall]
      constructor
      · intro hcon
        exact absurd hcon (by omega)
      · intro h
        exfalso
        apply hall
        rw [List.all_eq_true]
        intro f hf
        simpa using h f hf
  · intro f _ hopen
    have h1 : fincore_name f ps 0 = (0, 0, [Event.warn_open]) := by
      simp [fincore_name, hopen]
    rw [reportOf, h1]
    simp [sbValue, hopen]

/-- Witness for the amended C8, at a batch consisting of one unopenable
file. -/
theorem main_reports_amended_witness :
    (main_run 4096 [fileOpenFails]).1 = [fileOpenFails].map (reportOf 4096)
    ∧ ((main_run 4096 [fileOpenFails]).2 = 0
        ↔ ∀ f ∈ [fileOpenFails], (fincore_name f 4096 0).1 = 0)
    ∧ ∀ f ∈ [fileOpenFails], f.openOk = false →
        reportOf 4096 f = ReportLine.count 0 none :=
  main_reports_amended 4096 [fileOpenFails]

/-- Claim C9: a scan that fails after a window was already counted
(here: the first window succeeds with at least one resident page, the
residency query of the second window fails with `errno = e > 0`)
discards its partial progress — `fincore_name` returns the nonzero code
`-e`, the count accumulated so far is positive yet the caller-visible
outcome is the bare failure marker, never a count line. -/
theorem fincore_partial_progress_discarded (ps : Nat) (f : FileSpec) (e : Nat)
    (v : Nat → Nat)
    (hp : 0 < ps)
    (hopen : f.openOk = true) (hstat : f.fstatErr = none)
    (hfs : N_PAGES_IN_WINDOW * ps < f.st_size)
    (hm0 : f.mmapOk 0 (N_PAGES_IN_WINDOW * ps) = true)
    (hv0 : f.mincoreVec 0 (N_PAGES_IN_WINDOW * ps) = Except.ok v)
    (hres : v 0 % 2 = 1)
    (hm1 : f.mmapOk (N_PAGES_IN_WINDOW * ps)
      (wlen f.st_size (N_PAGES_IN_WINDOW * ps) (N_PAGES_IN_WINDOW * ps)) = true)
    (hv1 : f.mincoreVec (N_PAGES_IN_WINDOW * ps)
      (wlen f.st_size (N_PAGES_IN_WINDOW * ps) (N_PAGES_IN_WINDOW * ps))
        = Except.error e)
    (he : 0 < e) :
    (fincore_name f ps 0).1 = -(e : Int)
    ∧ 0 < (fincore_name f ps 0).2.1
    ∧ reportOf ps f = ReportLine.failed
    ∧ ∀ cnt sz, reportOf ps f ≠ ReportLine.count cnt sz := by
  have hnp : 0 < N_PAGES_IN_WINDOW := by decide
  have hws : 0 < N_PAGES_IN_WINDOW * ps := Nat.mul_pos hnp hp
  have hsz : f.st_size ≠ 0 := by omega
  have hwl0 : wlen f.st_size (N_PAGES_IN_WINDOW * ps) 0 = N_PAGES_IN_WINDOW * ps := by
    apply wlen_full
    omega
  have hname : fincore_name f ps 0
      = fincore_fd_go f ps (N_PAGES_IN_WINDOW * ps) 0 0 := by
    simp [fincore_name, fincore_fd, hopen, hstat, hsz]
  have hstep0 := go_success f ps (N_PAGES_IN_WINDOW * ps) 0 0 v (by omega) hws
    (by rw [hwl0]; exact hm0) (by rw [hwl0]; exact hv0)
  rw [hwl0] at hstep0
  have hpc : pageCeil (N_PAGES_IN_WINDOW * ps) ps = N_PAGES_IN_WINDOW :=
    pageCeil_mul ps hp N_PAGES_IN_WINDOW
  rw [hpc] at hstep0
  simp only [Nat.zero_add] at hstep0
  have hstep1 := go_mincore_err f ps (N_PAGES_IN_WINDOW * ps)
    (N_PAGES_IN_WINDOW * ps) (mincore_count v N_PAGES_IN_WINDOW 0) e
    hfs hws hm1 hv1 he
  rw [hstep1] at hstep0
  dsimp only at hstep0
  have hcount : 0 < mincore_count v N_PAGES_IN_WINDOW 0 :=
    mincore_count_pos v N_PAGES_IN_WINDOW 0 0 (by decide) hres
  have hrc : ¬ (-(e : Int) = 0) := by omega
  refine ⟨?_, ?_, ?_, ?_⟩
  · rw [hname, hstep0]
  · rw [hname, hstep0]
    dsimp only
    exact hcount
  · rw [reportOf, hname, hstep0]
    dsimp only
    rw [if_neg hrc]
  · intro cnt sz
    rw [reportOf, hname, hstep0]
    dsimp only
    rw [if_neg hrc]
    simp

/-- Witness for C9: page size 1, a `32769`-byte file whose first window
(32768 all-resident pages) succeeds and whose second window's residency
query fails with `errno = 5`. -/
theorem fincore_partial_progress_discarded_witness :
    (fincore_name fileSecondWindowFails 1 0).1 = -(5 : Int)
    ∧ 0 < (fincore_name fileSecondWindowFails 1 0).2.1
    ∧ reportOf 1 fileSecondWindowFails = ReportLine.failed
    ∧ ∀ cnt sz, reportOf 1 fileSecondWindowFails ≠ ReportLine.count cnt sz :=
  fincore_partial_progress_discarded 1 fileSecondWindowFails 5 (fun _ => 1)
    (by decide) rfl rfl (by decide) rfl rfl (by decide) rfl rfl (by decide)

/-- Claim C10: every window the scanner ever maps has byte length at
most `N_PAGES_IN_WINDOW * page_size`, hence the page count
`n = pageCeil len page_size` that `do_mincore` computes for it never
exceeds `N_PAGES_IN_WINDOW = 32768` — every index into the fixed
32768-entry residency vector is in bounds. -/
theorem mincore_vec_index_bound (ps : Nat) (f : FileSpec) (hp : 0 < ps) :
    ∀ o l, Event.mmap o l ∈ (fincore_fd f ps 0).2.2
      → l ≤ N_PAGES_IN_WINDOW * ps ∧ pageCeil l ps ≤ N_PAGES_IN_WINDOW := by
  intro o l hmem
  rw [fincore_fd] at hmem
  have hl := go_mmap_mem f ps (N_PAGES_IN_WINDOW * ps) f.st_size 0 0 o l
    (by omega) hmem
  exact ⟨hl, pageCeil_le_mul ps hp l N_PAGES_IN_WINDOW hl⟩

/-- Witness for C10: the single 5-byte window mapped for a 5-byte file
at page size 1 stays within the window capacity. -/
theorem mincore_vec_index_bound_witness :
    5 ≤ N_PAGES_IN_WINDOW * 1 ∧ pageCeil 5 1 ≤ N_PAGES_IN_WINDOW := by
  apply mincore_vec_index_bound 1 fileOneWindowMmapFails (by decide) 0 5
  rw [fincore_fd, go_mmap_fail fileOneWindowMmapFails 1 (N_PAGES_IN_WINDOW * 1) 0 0
    (by decide) (by decide) rfl]
  have h1 : wlen fileOneWindowMmapFails.st_size (N_PAGES_IN_WINDOW * 1) 0 = 5 := by
    decide
  rw [h1]
  simp

end Fincore
